import Mathlib

/-!
Verification of the ACC hotlap merger (`merger.py`).

The program reads a ZIP archive of JSON session-result files, reduces each
session to the best valid lap per `(playerId, carModel)` pair, merges these
across sessions keeping the strictly fastest lap per key, ranks all entries by
lap time with a gap to the overall fastest lap, and writes a CSV report.

The embedding below is a shallow, executable translation of `merger.py`:

* Python `dict`s become association lists (`List (key × value)`) together with
  `dictUpd` (update in place if the key is present, append otherwise — exactly
  Python insertion-order semantics) and `dictGet` (first matching entry, which
  under the no-duplicate-keys invariant maintained by `dictUpd` is the unique
  entry);
* archive members become `Member` values: a file name plus the already decoded
  `SessionRecord` (JSON decoding itself is an external collaborator; all
  claims under scrutiny assume well-formed JSON members);
* fallible steps (the `UnboundLocalError` reachable when the first archive
  member is not `.json`-suffixed, the `ValueError` raised by `min` on an empty
  mapping, the `KeyError` raised by an unknown car model) are modelled with
  `Except String`;
* Python integers are `Int` (`laptime`, `splits`, ids); `ms_to_time_format`
  is modelled on `Nat` since every claim about it concerns non-negative
  millisecond values, where Python `//`, `%` and `f"{n:02}"` agree with
  `Nat` division, modulo and zero-padded decimal rendering.
-/

/-- A driver as it appears in a leaderboard entry of the session JSON:
`{playerId, firstName, lastName}`. -/
structure Driver where
  playerId : String
  firstName : String
  lastName : String
deriving DecidableEq, Repr

/-- The car object of a leaderboard line: `carId`, `carModel` and the ordered
`drivers` list (indexed by `driverIndex`). -/
structure CarEntry where
  carId : Int
  carModel : Int
  drivers : List Driver
deriving DecidableEq, Repr

/-- One line of `data["sessionResult"]["leaderBoardLines"]`. -/
structure LeaderBoardLine where
  car : CarEntry
deriving DecidableEq, Repr

/-- One element of `data["laps"]`. -/
structure Lap where
  carId : Int
  driverIndex : Int
  laptime : Int
  isValidForBest : Bool
  splits : List Int
deriving DecidableEq, Repr

/-- A decoded session JSON document: the fields of it that `merger.py` reads,
namely `data["laps"]` and `data["sessionResult"]["leaderBoardLines"]`. -/
structure SessionRecord where
  laps : List Lap
  leaderBoardLines : List LeaderBoardLine
deriving DecidableEq, Repr

/-- Python `filename.endswith(".json")`: a suffix test on the character
sequence of the string.  (Lean's own `String.endsWith` has the same meaning
but is defined by well-founded recursion over UTF-8 byte positions, which the
kernel cannot evaluate; the list-of-characters form is used instead.) -/
def endswith (s post : String) : Bool :=
  post.data.isSuffixOf s.data

/-- Python `d[k]` lookup on a dict modelled as an association list: the first
entry with the given key. -/
def dictGet [DecidableEq α] (m : List (α × β)) (k : α) : Option β :=
  (m.find? (fun p => decide (p.1 = k))).map (·.2)

/-- Python `d[k] = v` on a dict modelled as an association list: if the key is
present its value is updated in place (keeping its position, as Python dicts
do), otherwise the new binding is appended (Python insertion order). -/
def dictUpd [DecidableEq α] (m : List (α × β)) (k : α) (v : β) : List (α × β) :=
  if m.any (fun p => decide (p.1 = k)) then
    m.map (fun p => if p.1 = k then (k, v) else p)
  else
    m ++ [(k, v)]

/-- The bindings generated, in order, by the dict comprehension that builds
`driver_map` in `process_session_data`:
`{(entry["car"]["carId"], idx): (driver["playerId"], entry["car"]["carModel"])
  for entry in leaderboard for idx, driver in enumerate(entry["car"]["drivers"])}`. -/
def driverMapBindings (leaderboard : List LeaderBoardLine) :
    List ((Int × Int) × (String × Int)) :=
  leaderboard.flatMap (fun entry =>
    entry.car.drivers.enum.map (fun p =>
      ((entry.car.carId, (p.1 : Int)), (p.2.playerId, entry.car.carModel))))

/-- The bindings generated, in order, by the dict comprehension that builds
`player_names`:
`{driver["playerId"]: (driver["firstName"], driver["lastName"])
  for entry in leaderboard for driver in entry["car"]["drivers"]}`. -/
def playerNamesBindings (leaderboard : List LeaderBoardLine) :
    List (String × (String × String)) :=
  leaderboard.flatMap (fun entry =>
    entry.car.drivers.map (fun d => (d.playerId, (d.firstName, d.lastName))))

/-- A Python dict comprehension: fold the generated bindings into an initially
empty dict, later bindings for the same key overwriting earlier ones. -/
def dictOfBindings [DecidableEq α] (bs : List (α × β)) : List (α × β) :=
  bs.foldl (fun m kv => dictUpd m kv.1 kv.2) []

/-- `driver_map` of `process_session_data`: maps `(carId, driverIndex)` to
`(playerId, carModel)`. -/
def driver_map (leaderboard : List LeaderBoardLine) :
    List ((Int × Int) × (String × Int)) :=
  dictOfBindings (driverMapBindings leaderboard)

/-- `player_names` of `process_session_data`: maps `playerId` to
`(firstName, lastName)`. -/
def player_names (leaderboard : List LeaderBoardLine) :
    List (String × (String × String)) :=
  dictOfBindings (playerNamesBindings leaderboard)

/-- The value stored in `best_laps` (and later in `aggregated_results`) for a
key: `{"laptime": ..., "splits": ..., "name": ...}`. -/
structure LapInfo where
  laptime : Int
  splits : List Int
  name : String × String
deriving DecidableEq, Repr

/-- The best-laps accumulator type: maps `(playerId, carModel)` to `LapInfo`. -/
abbrev BestLaps := List ((String × Int) × LapInfo)

/-- The guard `key not in best_laps or lap["laptime"] < best_laps[key]["laptime"]`
shared by the per-lap update in `process_session_data` and the per-key merge in
`aggregate_results`. -/
def shouldUpd (bl : BestLaps) (key : String × Int) (t : Int) : Bool :=
  match dictGet bl key with
  | none => true
  | some r => decide (t < r.laptime)

/-- The record stored for a lap:
`{"laptime": lap["laptime"], "splits": lap["splits"], "name": player_names[key[0]]}`.
The name lookup is a plain dict access in the source (it would raise
`KeyError` if absent); the `getD` default is proved unreachable whenever the
key comes out of `driver_map` (`player_names_covers_driver_map` below). -/
def lapRecord (pn : List (String × (String × String))) (key : String × Int)
    (lap : Lap) : LapInfo :=
  ⟨lap.laptime, lap.splits, (dictGet pn key.1).getD ("", "")⟩

/-- One iteration of the `for lap in laps` loop in `process_session_data`:
resolve the lap's `(carId, driverIndex)` through `driver_map` (skip the lap if
absent), then store it if it is valid for best and strictly faster than the
stored lap for its key. -/
def stepLap (dm : List ((Int × Int) × (String × Int)))
    (pn : List (String × (String × String))) (bl : BestLaps) (lap : Lap) :
    BestLaps :=
  match dictGet dm (lap.carId, lap.driverIndex) with
  | none => bl
  | some key =>
    if lap.isValidForBest && shouldUpd bl key lap.laptime then
      dictUpd bl key (lapRecord pn key lap)
    else bl

/-- `process_session_data(data)`: best valid lap per `(playerId, carModel)`
for one session. -/
def process_session_data (data : SessionRecord) : BestLaps :=
  data.laps.foldl
    (stepLap (driver_map data.leaderBoardLines) (player_names data.leaderBoardLines)) []

/-- One archive member: its name in the ZIP directory and its decoded
content.  Only members whose name ends in `.json` ever have their content
read (`json.load` is only reached under the suffix test). -/
structure Member where
  name : String
  content : SessionRecord
deriving DecidableEq, Repr

/-- One iteration of the inner `for key, lap_info in session_best_laps.items()`
merge loop in `aggregate_results`. -/
def mergeStep (agg : BestLaps) (kv : (String × Int) × LapInfo) : BestLaps :=
  if shouldUpd agg kv.1 kv.2.laptime then dictUpd agg kv.1 kv.2 else agg

/-- One iteration of the `for filename in z.namelist()` loop in
`aggregate_results`.  The loop state is the local variable `session_data`
(`none` while still unassigned) and the accumulator `aggregated_results`.
Because the call `process_session_data(session_data)` sits outside the
`if filename.endswith(".json")` guard in the source, it runs for every member;
when no JSON member has been seen yet this raises `UnboundLocalError`. -/
def loopStep (st : Option SessionRecord × BestLaps) (m : Member) :
    Except String (Option SessionRecord × BestLaps) :=
  let sd := if endswith m.name ".json" then some m.content else st.1
  match sd with
  | none =>
      Except.error "UnboundLocalError: local variable session_data referenced before assignment"
  | some s =>
      let sbl := process_session_data s
      Except.ok (some s, sbl.foldl mergeStep st.2)

/-- The member-processing loop of `aggregate_results`, returning the final
`aggregated_results` mapping. -/
def aggregate_loop (members : List Member) : Except String BestLaps :=
  (members.foldlM loopStep ((none : Option SessionRecord), ([] : BestLaps))).map (·.2)

/-- The scan performed by Python `min` over the remaining items: replace the
current minimum only on strict decrease (earlier element kept on ties). -/
def pyMinFold (rest : BestLaps) (b : Int) : Int :=
  rest.foldl (fun b p => if p.2.laptime < b then p.2.laptime else b) b

/-- `min(aggregated_results.items(), key=lambda x: x[1]["laptime"])[1]["laptime"]`:
the smallest stored laptime.  Python `min` raises `ValueError` on an empty
sequence. -/
def minLaptime : BestLaps → Except String Int
  | [] => Except.error "ValueError: min arg is an empty sequence"
  | kv :: rest => Except.ok (pyMinFold rest kv.2.laptime)

/-- One element of the list returned by `aggregate_results`. -/
structure RankedEntry where
  player_id : String
  name : String × String
  car_model : Int
  laptime : Int
  splits : List Int
  gap : Int
deriving DecidableEq, Repr

/-- The list comprehension in `aggregate_results` building one entry per
aggregated `(playerId, carModel)` pair, with `gap = laptime - best_lap`. -/
def rankedOf (agg : BestLaps) (best : Int) : List RankedEntry :=
  agg.map (fun kv =>
    ⟨kv.1.1, kv.2.name, kv.1.2, kv.2.laptime, kv.2.splits, kv.2.laptime - best⟩)

/-- The comparison `key=lambda x: x["laptime"]` used by `sorted` in
`aggregate_results`. -/
def lapLE (a b : RankedEntry) : Prop := a.laptime ≤ b.laptime

instance : DecidableRel lapLE :=
  fun a b => inferInstanceAs (Decidable (a.laptime ≤ b.laptime))

instance : IsTotal RankedEntry lapLE := ⟨fun a b => Int.le_total a.laptime b.laptime⟩

instance : IsTrans RankedEntry lapLE := ⟨fun _ _ _ h h2 => le_trans h h2⟩

/-- `sorted(..., key=lambda x: x["laptime"])`: Python `sorted` is a stable
sort, ascending by laptime.  A stable sort is uniquely determined as a
function, so it is modelled by Mathlib's stable `insertionSort` (which
inserts each element after all elements it ties with, exactly the stable
behaviour). -/
def sortByLaptime (l : List RankedEntry) : List RankedEntry :=
  l.insertionSort lapLE

/-- `aggregate_results(zip_file)`: the whole aggregation pipeline, from the
archive member list to the ranked entry list.  Errors model the uncaught
Python exceptions. -/
def aggregate_results (members : List Member) : Except String (List RankedEntry) := do
  let agg ← aggregate_loop members
  let best ← minLaptime agg
  Except.ok (sortByLaptime (rankedOf agg best))

/-- `f"{n:0w}"` for a non-negative integer: the decimal representation of `n`,
left-padded with zeros to a minimum width `w` (never truncated). -/
def padZeros (w : Nat) (n : Nat) : String :=
  let s := Nat.repr n
  String.mk (List.replicate (w - s.length) '0') ++ s

/-- `ms_to_time_format(milliseconds)`: render milliseconds as `mm:ss.mmm`
via `minutes = ms // 60000`, `seconds = (ms % 60000) // 1000`,
`milliseconds = ms % 1000` and `f"{minutes:02}:{seconds:02}.{milliseconds:03}"`. -/
def ms_to_time_format (milliseconds : Nat) : String :=
  let minutes := milliseconds / 60000
  let seconds := (milliseconds % 60000) / 1000
  let ms := milliseconds % 1000
  padZeros 2 minutes ++ ":" ++ padZeros 2 seconds ++ "." ++ padZeros 3 ms

/-- The Gap column of `export_hotlaps`: `f"{gap / 1000:.3f}"`.  The source
divides the integer gap by 1000 in floating point and renders with three
decimals; for the integer gaps this program produces (far below `2^49` ms)
the nearest double to `gap / 1000` rounds back to exactly the three-decimal
fixed-point expansion, so the rendering is modelled exactly on `Nat`. -/
def gapFormat (gap : Nat) : String :=
  Nat.repr (gap / 1000) ++ "." ++ padZeros 3 (gap % 1000)

/-- One CSV data row of `export_hotlaps`, given the car-model display table.
An unknown `car_model` raises `KeyError` in the source
(`car_models[entry["car_model"]]`). -/
def exportRow (carNames : Int → Option String) (e : RankedEntry) :
    Except String (List String) := do
  let car ← match carNames e.car_model with
    | some c => Except.ok c
    | none => Except.error "KeyError: unknown car model"
  Except.ok [e.name.1 ++ " " ++ e.name.2, car,
    ms_to_time_format e.laptime.toNat,
    ms_to_time_format (e.splits.getD 0 0).toNat,
    ms_to_time_format (e.splits.getD 1 0).toNat,
    ms_to_time_format (e.splits.getD 2 0).toNat,
    gapFormat e.gap.toNat]

/-- `export_hotlaps(output_csv, data)` as the list of CSV rows it writes
(header row first).  `car_models` is the static table imported from `cars.py`,
passed here as a parameter. -/
def export_hotlaps (carNames : Int → Option String) (data : List RankedEntry) :
    Except String (List (List String)) := do
  let rows ← data.mapM (exportRow carNames)
  Except.ok (["Name", "Car", "Lap Time", "S1", "S2", "S3", "Gap"] :: rows)

/-- The `__main__` pipeline: aggregate, then export.  When aggregation raises,
`export_hotlaps` is never called and no output file is written. -/
def run_merger (carNames : Int → Option String) (members : List Member) :
    Except String (List (List String)) := do
  let aggregated ← aggregate_results members
  export_hotlaps carNames aggregated

/-- The keys of a modelled dict are pairwise distinct. -/
abbrev NodupKeys (m : List (α × β)) : Prop :=
  m.Pairwise (fun a b => a.1 ≠ b.1)

/-- The last binding for a key in a binding list (`none` when the key never
occurs): the value a Python dict comprehension ends up storing for that key. -/
def lastVal [DecidableEq α] (bs : List (α × β)) (k : α) : Option β :=
  bs.foldl (fun acc p => if p.1 = k then some p.2 else acc) none

/-- A small well-formed session: driver `P1` in car 1 (model 5) with one valid
lap of 90000 ms and one faster but invalid lap of 80000 ms.  Used as concrete
input by witnesses and counterexamples. -/
def sampleSession : SessionRecord :=
  ⟨[⟨1, 0, 90000, true, [30000, 30000, 30000]⟩,
    ⟨1, 0, 80000, false, [26000, 27000, 27000]⟩],
   [⟨⟨1, 5, [⟨"P1", "Ann", "Archer"⟩]⟩⟩]⟩

/-- A lap referencing `(carId = 9, driverIndex = 3)`, a pair with no matching
leaderboard entry in `sampleSession`. -/
def orphanLap : Lap := ⟨9, 3, 50000, true, [16000, 17000, 17000]⟩

/-! ### Association-list dictionary lemmas -/

theorem dictGet_nil [DecidableEq α] (k : α) :
    dictGet ([] : List (α × β)) k = none := rfl

theorem dictGet_cons [DecidableEq α] (p : α × β) (m : List (α × β)) (k : α) :
    dictGet (p :: m) k = if p.1 = k then some p.2 else dictGet m k := by
  by_cases h : p.1 = k <;> simp [dictGet, List.find?_cons, h]

theorem dictGet_map_upd_self [DecidableEq α] (m : List (α × β)) (k : α) (v : β)
    (hany : m.any (fun p => decide (p.1 = k)) = true) :
    dictGet (m.map (fun p => if p.1 = k then (k, v) else p)) k = some v := by
  induction m with
  | nil => simp at hany
  | cons q m ih =>
    by_cases hq : q.1 = k
    · simp [List.map_cons, if_pos hq, dictGet_cons]
    · simp only [List.any_cons, Bool.or_eq_true, decide_eq_true_eq] at hany
      rcases hany with hany | hany
      · exact absurd hany hq
      · simp only [List.map_cons, if_neg hq, dictGet_cons, if_neg hq]
        exact ih (by simpa using hany)

theorem dictGet_map_upd_ne [DecidableEq α] (m : List (α × β)) (k k' : α) (v : β)
    (h : k' ≠ k) :
    dictGet (m.map (fun p => if p.1 = k then (k, v) else p)) k' = dictGet m k' := by
  induction m with
  | nil => rfl
  | cons q m ih =>
    by_cases hq : q.1 = k
    · have h1 : ¬ (k = k') := fun hk => h hk.symm
      have h2 : ¬ (q.1 = k') := fun hk => h (hk ▸ hq)
      simp only [List.map_cons, if_pos hq, dictGet_cons, if_neg h1, if_neg h2]
      exact ih
    · simp only [List.map_cons, if_neg hq, dictGet_cons]
      by_cases hq' : q.1 = k'
      · simp [hq']
      · simp only [if_neg hq']
        exact ih

theorem dictGet_append_single_self [DecidableEq α] (m : List (α × β)) (k : α) (v : β)
    (hany : ¬ m.any (fun p => decide (p.1 = k)) = true) :
    dictGet (m ++ [(k, v)]) k = some v := by
  induction m with
  | nil => simp [dictGet_cons]
  | cons q m ih =>
    simp only [List.any_cons, Bool.or_eq_true, decide_eq_true_eq] at hany
    push_neg at hany
    rw [List.cons_append, dictGet_cons, if_neg hany.1]
    exact ih (by simpa using hany.2)

theorem dictGet_append_single_ne [DecidableEq α] (m : List (α × β)) (k k' : α) (v : β)
    (h : k' ≠ k) : dictGet (m ++ [(k, v)]) k' = dictGet m k' := by
  induction m with
  | nil =>
    rw [List.nil_append, dictGet_cons, if_neg (fun hk : k = k' => h hk.symm)]
  | cons q m ih =>
    rw [List.cons_append, dictGet_cons, dictGet_cons]
    by_cases hq' : q.1 = k'
    · simp [hq']
    · rw [if_neg hq', if_neg hq']
      exact ih

theorem dictGet_dictUpd_self [DecidableEq α] (m : List (α × β)) (k : α) (v : β) :
    dictGet (dictUpd m k v) k = some v := by
  unfold dictUpd
  by_cases hany : m.any (fun p => decide (p.1 = k)) = true
  · rw [if_pos hany]
    exact dictGet_map_upd_self m k v hany
  · rw [if_neg hany]
    exact dictGet_append_single_self m k v hany

theorem dictGet_dictUpd_ne [DecidableEq α] (m : List (α × β)) (k k' : α) (v : β)
    (h : k' ≠ k) : dictGet (dictUpd m k v) k' = dictGet m k' := by
  unfold dictUpd
  by_cases hany : m.any (fun p => decide (p.1 = k)) = true
  · rw [if_pos hany]
    exact dictGet_map_upd_ne m k k' v h
  · rw [if_neg hany]
    exact dictGet_append_single_ne m k k' v h

theorem nodupKeys_dictUpd [DecidableEq α] (m : List (α × β)) (k : α) (v : β)
    (h : NodupKeys m) : NodupKeys (dictUpd m k v) := by
  unfold dictUpd NodupKeys
  by_cases hany : m.any (fun p => decide (p.1 = k)) = true
  · rw [if_pos hany, List.pairwise_map]
    refine h.imp ?_
    intro p q hpq
    by_cases hp : p.1 = k
    · by_cases hq : q.1 = k
      · exact absurd (hp.trans hq.symm) hpq
      · simp only [if_pos hp, if_neg hq]
        exact fun he => hq he.symm
    · by_cases hq : q.1 = k
      · simp only [if_neg hp, if_pos hq]
        exact fun he => hp he
      · simp only [if_neg hp, if_neg hq]
        exact hpq
  · rw [if_neg hany, List.pairwise_append]
    rw [List.any_eq_true] at hany
    push_neg at hany
    refine ⟨h, List.pairwise_singleton _ _, ?_⟩
    intro p hp p' hp'
    rw [List.mem_singleton] at hp'
    subst hp'
    have := hany p hp
    simpa using this

theorem dictGet_eq_some_of_mem [DecidableEq α] {m : List (α × β)} {k : α} {v : β}
    (hnd : NodupKeys m) (hmem : (k, v) ∈ m) : dictGet m k = some v := by
  induction m with
  | nil => cases hmem
  | cons q m ih =>
    rw [List.mem_cons] at hmem
    rcases hmem with hmem | hmem
    · rw [← hmem]
      simp [dictGet_cons]
    · rcases hnd with - | ⟨hq, hm⟩
      have hne : q.1 ≠ k := by
        have := hq (k, v) hmem
        simpa using this
      rw [dictGet_cons, if_neg hne]
      exact ih hm hmem

theorem mem_of_dictGet_eq_some [DecidableEq α] {m : List (α × β)} {k : α} {v : β}
    (h : dictGet m k = some v) : (k, v) ∈ m := by
  induction m with
  | nil => simp [dictGet_nil] at h
  | cons q m ih =>
    rw [dictGet_cons] at h
    by_cases hq : q.1 = k
    · rw [if_pos hq] at h
      injection h with h2
      subst hq
      rw [← h2]
      simp
    · rw [if_neg hq] at h
      exact List.mem_cons_of_mem q (ih h)

/-! ### Lemmas about `shouldUpd` and `stepLap` -/

theorem shouldUpd_of_none {bl : BestLaps} {k : String × Int} (t : Int)
    (h : dictGet bl k = none) : shouldUpd bl k t = true := by
  simp [shouldUpd, h]

theorem shouldUpd_of_some {bl : BestLaps} {k : String × Int} {r : LapInfo} (t : Int)
    (h : dictGet bl k = some r) : shouldUpd bl k t = decide (t < r.laptime) := by
  simp [shouldUpd, h]

theorem stepLap_of_unresolved {dm pn bl} {lap : Lap}
    (h : dictGet dm (lap.carId, lap.driverIndex) = none) :
    stepLap dm pn bl lap = bl := by
  simp [stepLap, h]

theorem stepLap_of_invalid {dm pn bl} {lap : Lap}
    (h : lap.isValidForBest = false) : stepLap dm pn bl lap = bl := by
  unfold stepLap
  cases hdm : dictGet dm (lap.carId, lap.driverIndex) with
  | none => rfl
  | some key => simp [h]

theorem stepLap_of_noUpd {dm pn bl} {lap : Lap} {k : String × Int}
    (h : dictGet dm (lap.carId, lap.driverIndex) = some k)
    (hs : shouldUpd bl k lap.laptime = false) :
    stepLap dm pn bl lap = bl := by
  simp [stepLap, h, hs]

theorem stepLap_of_upd {dm pn bl} {lap : Lap} {k : String × Int}
    (h : dictGet dm (lap.carId, lap.driverIndex) = some k)
    (hv : lap.isValidForBest = true)
    (hs : shouldUpd bl k lap.laptime = true) :
    stepLap dm pn bl lap = dictUpd bl k (lapRecord pn k lap) := by
  simp [stepLap, h, hv, hs]

theorem nodupKeys_stepLap {dm pn} {bl : BestLaps} (lap : Lap)
    (h : NodupKeys bl) : NodupKeys (stepLap dm pn bl lap) := by
  cases hdm : dictGet dm (lap.carId, lap.driverIndex) with
  | none =>
    rw [stepLap_of_unresolved hdm]
    exact h
  | some key =>
    cases hv : lap.isValidForBest with
    | false =>
      rw [stepLap_of_invalid hv]
      exact h
    | true =>
      cases hs : shouldUpd bl key lap.laptime with
      | false =>
        rw [stepLap_of_noUpd hdm hs]
        exact h
      | true =>
        rw [stepLap_of_upd hdm hv hs]
        exact nodupKeys_dictUpd bl key _ h

theorem nodupKeys_foldl_stepLap {dm pn} (laps : List Lap) (bl : BestLaps)
    (h : NodupKeys bl) : NodupKeys (laps.foldl (stepLap dm pn) bl) := by
  induction laps generalizing bl with
  | nil => exact h
  | cons lap laps ih =>
    rw [List.foldl_cons]
    exact ih _ (nodupKeys_stepLap lap h)

theorem nodupKeys_process_session_data (data : SessionRecord) :
    NodupKeys (process_session_data data) :=
  nodupKeys_foldl_stepLap data.laps [] List.Pairwise.nil

/-- The full characterization of one fold step: how `stepLap` changes the
lookup at an arbitrary key. -/
theorem dictGet_stepLap (dm pn) (bl : BestLaps) (lap : Lap) (k : String × Int) :
    dictGet (stepLap dm pn bl lap) k =
      if dictGet dm (lap.carId, lap.driverIndex) = some k ∧
          lap.isValidForBest = true ∧ shouldUpd bl k lap.laptime = true then
        some (lapRecord pn k lap)
      else dictGet bl k := by
  cases hdm : dictGet dm (lap.carId, lap.driverIndex) with
  | none =>
    rw [stepLap_of_unresolved hdm, if_neg]
    rintro ⟨h1, -, -⟩
    cases h1
  | some key =>
    cases hv : lap.isValidForBest with
    | false =>
      rw [stepLap_of_invalid hv, if_neg]
      rintro ⟨-, h2, -⟩
      cases h2
    | true =>
      cases hs : shouldUpd bl key lap.laptime with
      | false =>
        rw [stepLap_of_noUpd hdm hs]
        by_cases hk : key = k
        · subst hk
          rw [if_neg]
          rintro ⟨-, -, h3⟩
          rw [hs] at h3
          cases h3
        · rw [if_neg]
          rintro ⟨h1, -, -⟩
          injection h1 with h1
          exact hk h1
      | true =>
        rw [stepLap_of_upd hdm hv hs]
        by_cases hk : key = k
        · subst hk
          rw [if_pos ⟨rfl, rfl, hs⟩]
          exact dictGet_dictUpd_self bl key _
        · rw [if_neg, dictGet_dictUpd_ne bl key k _ (fun he => hk he.symm)]
          rintro ⟨h1, -, -⟩
          injection h1 with h1
          exact hk h1

/-- The master invariant of the per-session fold: any record found after
folding a list of laps is either inherited from the initial accumulator or
produced by one of the laps; it is a lower bound on every valid lap of the
list that resolves to its key, and on whatever the initial accumulator held. -/
theorem foldl_stepLap_spec (dm pn) (laps : List Lap) (bl : BestLaps)
    (k : String × Int) (r : LapInfo)
    (h : dictGet (laps.foldl (stepLap dm pn) bl) k = some r) :
    (dictGet bl k = some r ∨
      ∃ lap ∈ laps, dictGet dm (lap.carId, lap.driverIndex) = some k ∧
        lap.isValidForBest = true ∧ r = lapRecord pn k lap) ∧
    (∀ lap ∈ laps, dictGet dm (lap.carId, lap.driverIndex) = some k →
      lap.isValidForBest = true → r.laptime ≤ lap.laptime) ∧
    (∀ r₀, dictGet bl k = some r₀ → r.laptime ≤ r₀.laptime) := by
  induction laps generalizing bl with
  | nil =>
    rw [List.foldl_nil] at h
    refine ⟨Or.inl h, ?_, ?_⟩
    · intro lap hlap
      cases hlap
    · intro r₀ h₀
      rw [h] at h₀
      injection h₀ with h₀
      rw [h₀]
  | cons lap laps ih =>
    rw [List.foldl_cons] at h
    obtain ⟨hsrc, hbound, hinit⟩ := ih (stepLap dm pn bl lap) h
    have hstep := dictGet_stepLap dm pn bl lap k
    by_cases hcond : dictGet dm (lap.carId, lap.driverIndex) = some k ∧
        lap.isValidForBest = true ∧ shouldUpd bl k lap.laptime = true
    · rw [if_pos hcond] at hstep
      refine ⟨?_, ?_, ?_⟩
      · rcases hsrc with hsrc | ⟨lap', hmem, h1, h2, h3⟩
        · rw [hstep] at hsrc
          injection hsrc with hsrc
          exact Or.inr ⟨lap, List.mem_cons_self lap laps, hcond.1, hcond.2.1, hsrc.symm⟩
        · exact Or.inr ⟨lap', List.mem_cons_of_mem lap hmem, h1, h2, h3⟩
      · intro lap' hmem h1 h2
        rw [List.mem_cons] at hmem
        rcases hmem with hmem | hmem
        · have := hinit (lapRecord pn k lap) hstep
          rw [hmem]
          exact this
        · exact hbound lap' hmem h1 h2
      · intro r₀ h₀
        have h1 := hinit (lapRecord pn k lap) hstep
        have h2 : lap.laptime < r₀.laptime := by
          have hs := shouldUpd_of_some lap.laptime h₀
          rw [hcond.2.2] at hs
          exact of_decide_eq_true hs.symm
        calc r.laptime ≤ lap.laptime := h1
          _ ≤ r₀.laptime := le_of_lt h2
    · rw [if_neg hcond] at hstep
      refine ⟨?_, ?_, ?_⟩
      · rcases hsrc with hsrc | ⟨lap', hmem, h1, h2, h3⟩
        · rw [hstep] at hsrc
          exact Or.inl hsrc
        · exact Or.inr ⟨lap', List.mem_cons_of_mem lap hmem, h1, h2, h3⟩
      · intro lap' hmem h1 h2
        rw [List.mem_cons] at hmem
        rcases hmem with hmem | hmem
        · subst hmem
          cases hs : shouldUpd bl k lap'.laptime with
          | true => exact absurd ⟨h1, h2, hs⟩ hcond
          | false =>
            obtain ⟨r₀, h₀⟩ : ∃ r₀, dictGet bl k = some r₀ := by
              cases hbl : dictGet bl k with
              | none => rw [shouldUpd_of_none lap'.laptime hbl] at hs; cases hs
              | some r₀ => exact ⟨r₀, rfl⟩
            have hr₀ : ¬ (lap'.laptime < r₀.laptime) := by
              rw [shouldUpd_of_some lap'.laptime h₀] at hs
              exact of_decide_eq_false hs
            have h1' : r.laptime ≤ r₀.laptime := by
              apply hinit
              rw [hstep]
              exact h₀
            exact le_trans h1' (le_of_not_lt hr₀)
        · exact hbound lap' hmem h1 h2
      · intro r₀ h₀
        apply hinit
        rw [hstep]
        exact h₀

/-! ### Lemmas about the cross-session merge -/

theorem dictGet_eq_none_any {m : List (α × β)} [DecidableEq α] {k : α}
    (h : dictGet m k = none) : m.any (fun p => decide (p.1 = k)) = false := by
  rw [dictGet] at h
  rw [Option.map_eq_none'] at h
  rw [List.find?_eq_none] at h
  rw [List.any_eq_false]
  intro p hp
  simpa using h p hp

theorem dictUpd_of_get_none [DecidableEq α] {m : List (α × β)} {k : α} (v : β)
    (h : dictGet m k = none) : dictUpd m k v = m ++ [(k, v)] := by
  unfold dictUpd
  rw [dictGet_eq_none_any h]
  simp

theorem dictGet_mergeStep (agg : BestLaps) (kv : (String × Int) × LapInfo)
    (k : String × Int) :
    dictGet (mergeStep agg kv) k =
      if kv.1 = k ∧ shouldUpd agg kv.1 kv.2.laptime = true then some kv.2
      else dictGet agg k := by
  unfold mergeStep
  cases hs : shouldUpd agg kv.1 kv.2.laptime with
  | false =>
    rw [if_neg (by simp), if_neg]
    rintro ⟨-, h2⟩
    cases h2
  | true =>
    rw [if_pos rfl]
    by_cases hk : kv.1 = k
    · rw [if_pos ⟨hk, rfl⟩, ← hk]
      exact dictGet_dictUpd_self agg kv.1 kv.2
    · rw [if_neg (fun hc => hk hc.1)]
      exact dictGet_dictUpd_ne agg kv.1 k kv.2 (fun he => hk he.symm)

theorem nodupKeys_mergeStep (agg : BestLaps) (kv : (String × Int) × LapInfo)
    (h : NodupKeys agg) : NodupKeys (mergeStep agg kv) := by
  unfold mergeStep
  cases hs : shouldUpd agg kv.1 kv.2.laptime with
  | false => simpa using h
  | true =>
    rw [if_pos rfl]
    exact nodupKeys_dictUpd agg kv.1 kv.2 h

theorem nodupKeys_foldl_mergeStep (kvs : List ((String × Int) × LapInfo))
    (agg : BestLaps) (h : NodupKeys agg) :
    NodupKeys (kvs.foldl mergeStep agg) := by
  induction kvs generalizing agg with
  | nil => exact h
  | cons kv kvs ih =>
    rw [List.foldl_cons]
    exact ih _ (nodupKeys_mergeStep agg kv h)

/-- Merging a session result whose keys are all fresh appends its entries
unchanged. -/
theorem foldl_mergeStep_disjoint (kvs : List ((String × Int) × LapInfo))
    (agg : BestLaps) (hnd : NodupKeys kvs)
    (hdisj : ∀ kv ∈ kvs, dictGet agg kv.1 = none) :
    kvs.foldl mergeStep agg = agg ++ kvs := by
  induction kvs generalizing agg with
  | nil => simp
  | cons kv kvs ih =>
    rcases hnd with - | ⟨hk, hnd⟩
    have hnone : dictGet agg kv.1 = none := hdisj kv (List.mem_cons_self kv kvs)
    have hstep : mergeStep agg kv = agg ++ [kv] := by
      unfold mergeStep
      rw [shouldUpd_of_none _ hnone, if_pos rfl, dictUpd_of_get_none _ hnone]
    rw [List.foldl_cons, hstep, ih (agg ++ [kv]) hnd ?_, List.append_assoc,
      List.singleton_append]
    intro kv' hkv'
    have hne : kv'.1 ≠ kv.1 := fun he => (hk kv' hkv') he.symm
    calc dictGet (agg ++ [kv]) kv'.1
        = dictGet (agg ++ [(kv.1, kv.2)]) kv'.1 := by rw [Prod.mk.eta]
      _ = dictGet agg kv'.1 := dictGet_append_single_ne agg kv.1 kv'.1 kv.2 hne
      _ = none := hdisj kv' (List.mem_cons_of_mem kv hkv')

/-- Merging a session result that is everywhere at least as slow as what the
accumulator already holds leaves the accumulator unchanged. -/
theorem foldl_mergeStep_noop (kvs : List ((String × Int) × LapInfo))
    (agg : BestLaps)
    (h : ∀ kv ∈ kvs, ∃ r, dictGet agg kv.1 = some r ∧ r.laptime ≤ kv.2.laptime) :
    kvs.foldl mergeStep agg = agg := by
  induction kvs with
  | nil => rfl
  | cons kv kvs ih =>
    obtain ⟨r, hr, hle⟩ := h kv (List.mem_cons_self kv kvs)
    have hstep : mergeStep agg kv = agg := by
      unfold mergeStep
      rw [shouldUpd_of_some _ hr, if_neg]
      simp only [decide_eq_true_eq]
      exact not_lt_of_le hle
    rw [List.foldl_cons, hstep]
    exact ih (fun kv' hkv' => h kv' (List.mem_cons_of_mem kv hkv'))

/-- An established aggregated record for a key survives merging any sequence
of records that are not strictly faster on that key. -/
theorem foldl_mergeStep_keeps (kvs : List ((String × Int) × LapInfo))
    (agg : BestLaps) (k : String × Int) (r : LapInfo)
    (h : dictGet agg k = some r)
    (hge : ∀ kv ∈ kvs, kv.1 = k → r.laptime ≤ kv.2.laptime) :
    dictGet (kvs.foldl mergeStep agg) k = some r := by
  induction kvs generalizing agg with
  | nil => exact h
  | cons kv kvs ih
  =>
    rw [List.foldl_cons]
    refine ih (mergeStep agg kv) ?_
      (fun kv' hkv' => hge kv' (List.mem_cons_of_mem kv hkv'))
    rw [dictGet_mergeStep]
    by_cases hk : kv.1 = k
    · have hle := hge kv (List.mem_cons_self kv kvs) hk
      rw [if_neg]
      · exact h
      · rintro ⟨-, h2⟩
        rw [hk, shouldUpd_of_some _ h] at h2
        exact absurd (of_decide_eq_true h2) (not_lt_of_le hle)
    · rw [if_neg (fun hc => hk hc.1)]
      exact h

/-! ### Last-binding-wins semantics of the dict comprehensions -/

theorem lastVal_append_single [DecidableEq α] (bs : List (α × β)) (q : α × β)
    (k : α) :
    lastVal (bs ++ [q]) k = if q.1 = k then some q.2 else lastVal bs k := by
  rw [lastVal, List.foldl_append]
  rfl

theorem dictOfBindings_append_single [DecidableEq α] (bs : List (α × β))
    (q : α × β) :
    dictOfBindings (bs ++ [q]) = dictUpd (dictOfBindings bs) q.1 q.2 := by
  rw [dictOfBindings, List.foldl_append]
  rfl

/-- A Python dict comprehension looks up to the **last** binding generated for
a key: later duplicate bindings overwrite earlier ones. -/
theorem dictGet_dictOfBindings [DecidableEq α] (bs : List (α × β)) (k : α) :
    dictGet (dictOfBindings bs) k = lastVal bs k := by
  induction bs using List.reverseRecOn with
  | nil => rfl
  | append_singleton bs q ih =>
    rw [dictOfBindings_append_single, lastVal_append_single]
    by_cases hq : q.1 = k
    · rw [if_pos hq, ← hq]
      exact dictGet_dictUpd_self _ q.1 q.2
    · rw [if_neg hq, dictGet_dictUpd_ne _ q.1 k q.2 (fun he => hq he.symm)]
      exact ih

theorem lastVal_isSome_of_mem [DecidableEq α] {bs : List (α × β)} {k : α} {v : β}
    (h : (k, v) ∈ bs) : ∃ w, lastVal bs k = some w := by
  induction bs using List.reverseRecOn with
  | nil => cases h
  | append_singleton bs q ih =>
    rw [lastVal_append_single]
    by_cases hq : q.1 = k
    · exact ⟨q.2, if_pos hq⟩
    · rw [if_neg hq]
      rw [List.mem_append] at h
      rcases h with h | h
      · exact ih h
      · rw [List.mem_singleton] at h
        rw [← h] at hq
        exact absurd rfl hq

theorem mem_dictUpd_sub [DecidableEq α] {m : List (α × β)} {k : α} {v : β}
    {p : α × β} (h : p ∈ dictUpd m k v) : p ∈ m ∨ p = (k, v) := by
  unfold dictUpd at h
  by_cases hany : m.any (fun p => decide (p.1 = k)) = true
  · rw [if_pos hany, List.mem_map] at h
    obtain ⟨p₀, hp₀, heq⟩ := h
    by_cases hk : p₀.1 = k
    · rw [if_pos hk] at heq
      exact Or.inr heq.symm
    · rw [if_neg hk] at heq
      exact Or.inl (heq ▸ hp₀)
  · rw [if_neg hany, List.mem_append] at h
    rcases h with h | h
    · exact Or.inl h
    · rw [List.mem_singleton] at h
      exact Or.inr h

theorem mem_dictOfBindings_sub [DecidableEq α] {bs : List (α × β)} {p : α × β}
    (h : p ∈ dictOfBindings bs) : p ∈ bs := by
  induction bs using List.reverseRecOn with
  | nil => cases h
  | append_singleton bs q ih =>
    rw [dictOfBindings_append_single] at h
    rcases mem_dictUpd_sub h with h | h
    · exact List.mem_append_left _ (ih h)
    · rw [List.mem_append, h, Prod.mk.eta]
      exact Or.inr (List.mem_singleton_self q)

theorem snd_mem_of_mem_enumFrom {l : List α} {p : Nat × α} :
    ∀ {n : Nat}, p ∈ l.enumFrom n → p.2 ∈ l := by
  induction l with
  | nil =>
    intro n h
    cases h
  | cons a l ih =>
    intro n h
    rw [List.enumFrom_cons, List.mem_cons] at h
    rcases h with h | h
    · rw [h]
      exact List.mem_cons_self a l
    · exact List.mem_cons_of_mem a (ih h)

/-- Whenever `driver_map` resolves a lap to `(playerId, carModel)`, the
`player_names` dict has an entry for that `playerId`: the dict access
`player_names[key[0]]` in the source can never raise `KeyError`, and the
`getD` fallback in `lapRecord` is unreachable. -/
theorem player_names_covers_driver_map (lb : List LeaderBoardLine)
    (cd : Int × Int) (pid : String) (cm : Int)
    (h : dictGet (driver_map lb) cd = some (pid, cm)) :
    ∃ nm, dictGet (player_names lb) pid = some nm := by
  have hmem : (cd, (pid, cm)) ∈ driverMapBindings lb :=
    mem_dictOfBindings_sub (mem_of_dictGet_eq_some h)
  rw [driverMapBindings, List.mem_flatMap] at hmem
  obtain ⟨entry, hentry, hmem⟩ := hmem
  rw [List.mem_map] at hmem
  obtain ⟨q, hq, heq⟩ := hmem
  have hpid : q.2.playerId = pid := by
    have := congrArg (fun x => x.2.1) heq
    simpa using this
  have hd : q.2 ∈ entry.car.drivers := snd_mem_of_mem_enumFrom hq
  have hbind : (pid, (q.2.firstName, q.2.lastName)) ∈ playerNamesBindings lb := by
    rw [playerNamesBindings, List.mem_flatMap]
    refine ⟨entry, hentry, ?_⟩
    rw [List.mem_map]
    exact ⟨q.2, hd, by rw [hpid]⟩
  rw [player_names, dictGet_dictOfBindings]
  exact lastVal_isSome_of_mem hbind

/-! ### Lemmas about the member loop and the ranking phase -/

theorem loopStep_json (st : Option SessionRecord × BestLaps) (m : Member)
    (h : endswith m.name ".json" = true) :
    loopStep st m =
      Except.ok (some m.content,
        (process_session_data m.content).foldl mergeStep st.2) := by
  simp [loopStep, h]

theorem loopStep_nonjson_some (s : SessionRecord) (agg : BestLaps) (m : Member)
    (h : endswith m.name ".json" = false) :
    loopStep (some s, agg) m =
      Except.ok (some s, (process_session_data s).foldl mergeStep agg) := by
  simp [loopStep, h]

theorem loopStep_nonjson_none (agg : BestLaps) (m : Member)
    (h : endswith m.name ".json" = false) :
    loopStep (none, agg) m =
      Except.error
        "UnboundLocalError: local variable session_data referenced before assignment" := by
  simp [loopStep, h]

theorem pyMinFold_spec (rest : BestLaps) (b₀ : Int) :
    (pyMinFold rest b₀ = b₀ ∨ ∃ p ∈ rest, pyMinFold rest b₀ = p.2.laptime) ∧
    pyMinFold rest b₀ ≤ b₀ ∧ ∀ p ∈ rest, pyMinFold rest b₀ ≤ p.2.laptime := by
  induction rest generalizing b₀ with
  | nil =>
    refine ⟨Or.inl rfl, le_refl b₀, ?_⟩
    intro p hp
    cases hp
  | cons q rest ih =>
    have hstep : pyMinFold (q :: rest) b₀ =
        pyMinFold rest (if q.2.laptime < b₀ then q.2.laptime else b₀) := rfl
    obtain ⟨hsrc, hle, hbound⟩ := ih (if q.2.laptime < b₀ then q.2.laptime else b₀)
    have hb₁ : (if q.2.laptime < b₀ then q.2.laptime else b₀) ≤ b₀ := by
      by_cases hq : q.2.laptime < b₀
      · rw [if_pos hq]
        exact le_of_lt hq
      · rw [if_neg hq]
    have hq₁ : (if q.2.laptime < b₀ then q.2.laptime else b₀) ≤ q.2.laptime := by
      by_cases hq : q.2.laptime < b₀
      · rw [if_pos hq]
      · rw [if_neg hq]
        exact le_of_not_lt hq
    refine ⟨?_, ?_, ?_⟩
    · rcases hsrc with hsrc | ⟨p, hp, hps⟩
      · by_cases hq : q.2.laptime < b₀
        · rw [hstep, hsrc, if_pos hq]
          exact Or.inr ⟨q, List.mem_cons_self q rest, rfl⟩
        · rw [hstep, hsrc, if_neg hq]
          exact Or.inl rfl
      · exact Or.inr ⟨p, List.mem_cons_of_mem q hp, by rw [hstep]; exact hps⟩
    · rw [hstep]
      exact le_trans hle hb₁
    · intro p hp
      rw [List.mem_cons] at hp
      rcases hp with hp | hp
      · rw [hstep, hp]
        exact le_trans hle hq₁
      · rw [hstep]
        exact hbound p hp

theorem minLaptime_ok {agg : BestLaps} {b : Int} (h : minLaptime agg = Except.ok b) :
    (∃ p ∈ agg, p.2.laptime = b) ∧ ∀ p ∈ agg, b ≤ p.2.laptime := by
  cases agg with
  | nil => cases h
  | cons kv rest =>
    have hb : b = pyMinFold rest kv.2.laptime := by
      rw [minLaptime] at h
      injection h with h
      exact h.symm
    obtain ⟨hsrc, hle, hbound⟩ := pyMinFold_spec rest kv.2.laptime
    subst hb
    refine ⟨?_, ?_⟩
    · rcases hsrc with hsrc | ⟨p, hp, hps⟩
      · exact ⟨kv, List.mem_cons_self kv rest, hsrc.symm⟩
      · exact ⟨p, List.mem_cons_of_mem kv hp, hps.symm⟩
    · intro p hp
      rw [List.mem_cons] at hp
      rcases hp with hp | hp
      · rw [hp]
        exact hle
      · exact hbound p hp

theorem aggregate_results_of_ok {members : List Member} {agg : BestLaps} {b : Int}
    (h1 : aggregate_loop members = Except.ok agg)
    (h2 : minLaptime agg = Except.ok b) :
    aggregate_results members = Except.ok (sortByLaptime (rankedOf agg b)) := by
  unfold aggregate_results
  rw [h1]
  show (minLaptime agg).bind _ = _
  rw [h2]
  rfl

theorem aggregate_results_ok_inv {members : List Member} {l : List RankedEntry}
    (h : aggregate_results members = Except.ok l) :
    ∃ agg b, aggregate_loop members = Except.ok agg ∧
      minLaptime agg = Except.ok b ∧ l = sortByLaptime (rankedOf agg b) := by
  unfold aggregate_results at h
  cases hl : aggregate_loop members with
  | error e =>
    rw [hl] at h
    cases h
  | ok agg =>
    rw [hl] at h
    replace h : (minLaptime agg).bind
        (fun best => Except.ok (sortByLaptime (rankedOf agg best))) = Except.ok l := h
    cases hb : minLaptime agg with
    | error e =>
      rw [hb] at h
      cases h
    | ok b =>
      rw [hb] at h
      injection h with h
      exact ⟨agg, b, rfl, hb, h.symm⟩

theorem sortByLaptime_perm (l : List RankedEntry) :
    List.Perm (sortByLaptime l) l :=
  List.perm_insertionSort lapLE l

theorem sortByLaptime_sorted (l : List RankedEntry) :
    List.Pairwise lapLE (sortByLaptime l) :=
  List.sorted_insertionSort lapLE l

theorem mem_sortByLaptime {l : List RankedEntry} {e : RankedEntry} :
    e ∈ sortByLaptime l ↔ e ∈ l :=
  (sortByLaptime_perm l).mem_iff

theorem dictGet_self_of_mem [DecidableEq α] {m : List (α × β)}
    (hnd : NodupKeys m) {kv : α × β} (h : kv ∈ m) :
    dictGet m kv.1 = some kv.2 := by
  refine dictGet_eq_some_of_mem hnd ?_
  rw [Prod.mk.eta]
  exact h

/-- Every entry of a session result dominates itself in the accumulator that
holds exactly that session result. -/
theorem self_merge_dominated (s : SessionRecord) :
    ∀ kv ∈ process_session_data s,
      ∃ r, dictGet (process_session_data s) kv.1 = some r ∧
        r.laptime ≤ kv.2.laptime := by
  intro kv hkv
  exact ⟨kv.2, dictGet_self_of_mem (nodupKeys_process_session_data s) hkv,
    le_refl _⟩

/-- Once a session has been loaded, trailing members that are not
`.json`-suffixed re-merge that same session's result, which never changes the
accumulator that already dominates it. -/
theorem foldlM_nonjson_noop (rest : List Member) (s : SessionRecord)
    (agg : BestLaps)
    (hagg : ∀ kv ∈ process_session_data s,
      ∃ r, dictGet agg kv.1 = some r ∧ r.laptime ≤ kv.2.laptime)
    (h : ∀ m ∈ rest, endswith m.name ".json" = false) :
    rest.foldlM loopStep ((some s : Option SessionRecord), agg) =
      Except.ok (some s, agg) := by
  induction rest with
  | nil => rfl
  | cons m rest ih =>
    rw [List.foldlM_cons,
      loopStep_nonjson_some s agg m (h m (List.mem_cons_self m rest)),
      foldl_mergeStep_noop _ _ hagg]
    show rest.foldlM loopStep ((some s : Option SessionRecord), agg) = _
    exact ih (fun m' hm' => h m' (List.mem_cons_of_mem m hm'))

/-- An archive whose first member is the single qualifying session file (any
non-JSON members following it) aggregates to exactly that session's
reduction. -/
theorem aggregate_loop_single (nm : String) (s : SessionRecord)
    (rest : List Member) (h1 : endswith nm ".json" = true)
    (h2 : ∀ m ∈ rest, endswith m.name ".json" = false) :
    aggregate_loop (⟨nm, s⟩ :: rest) = Except.ok (process_session_data s) := by
  have hfresh : (process_session_data s).foldl mergeStep ([] : BestLaps) =
      process_session_data s := by
    rw [foldl_mergeStep_disjoint (process_session_data s) ([] : BestLaps)
      (nodupKeys_process_session_data s) (fun kv _ => dictGet_nil kv.1),
      List.nil_append]
  have hloop : (⟨nm, s⟩ :: rest : List Member).foldlM loopStep
      ((none : Option SessionRecord), ([] : BestLaps)) =
      Except.ok ((some s : Option SessionRecord), process_session_data s) := by
    rw [List.foldlM_cons,
      loopStep_json ((none : Option SessionRecord), ([] : BestLaps)) ⟨nm, s⟩ h1]
    show rest.foldlM loopStep
      ((some s : Option SessionRecord),
        (process_session_data s).foldl mergeStep ([] : BestLaps)) = _
    rw [hfresh]
    exact foldlM_nonjson_noop rest s (process_session_data s)
      (self_merge_dominated s) h2
  unfold aggregate_loop
  rw [hloop]
  rfl

/-! ### Decimal-rendering lemmas for the time formatter -/

theorem padZeros_length (w n : Nat) :
    (padZeros w n).length = (w - (Nat.repr n).length) + (Nat.repr n).length := by
  rw [padZeros, String.length_append, String.length_mk, List.length_replicate]

theorem toDigitsCore_length_mono (f : Nat) :
    ∀ (n : Nat) (l : List Char), l.length ≤ (Nat.toDigitsCore 10 f n l).length := by
  induction f with
  | zero =>
    intro n l
    simp [Nat.toDigitsCore]
  | succ g ih =>
    intro n l
    by_cases h : n / 10 = 0
    · simp [Nat.toDigitsCore, h]
    · calc l.length ≤ (Nat.digitChar (n % 10) :: l).length := by simp
        _ ≤ (Nat.toDigitsCore 10 g (n / 10) (Nat.digitChar (n % 10) :: l)).length :=
            ih (n / 10) _
        _ = (Nat.toDigitsCore 10 (g + 1) n l).length := by
            simp [Nat.toDigitsCore, h]

theorem toDigitsCore_length_lower (f n : Nat) (l : List Char) (hf : 0 < f) :
    l.length + 1 ≤ (Nat.toDigitsCore 10 f n l).length := by
  obtain ⟨g, rfl⟩ : ∃ g, f = g + 1 := ⟨f - 1, by omega⟩
  by_cases h : n / 10 = 0
  · simp [Nat.toDigitsCore, h]
  · calc l.length + 1 = (Nat.digitChar (n % 10) :: l).length := by simp
      _ ≤ (Nat.toDigitsCore 10 g (n / 10) (Nat.digitChar (n % 10) :: l)).length :=
          toDigitsCore_length_mono g (n / 10) _
      _ = (Nat.toDigitsCore 10 (g + 1) n l).length := by
          simp [Nat.toDigitsCore, h]

/-- A number of at least 100 has at least three decimal digits: `f"{n:02}"`
pads but never truncates. -/
theorem repr_length_lower_100 (n : Nat) (h : 100 ≤ n) :
    3 ≤ (Nat.repr n).length := by
  have hrepr : Nat.repr n = (Nat.toDigits 10 n).asString := rfl
  rw [hrepr, List.length_asString, Nat.toDigits]
  have h1 : ¬ n / 10 = 0 := by omega
  have h2 : ¬ n / 10 / 10 = 0 := by omega
  obtain ⟨m, hm⟩ : ∃ m, n = m + 1 := ⟨n - 1, by omega⟩
  have hstep1 : Nat.toDigitsCore 10 (n + 1) n [] =
      Nat.toDigitsCore 10 n (n / 10) [Nat.digitChar (n % 10)] := by
    simp [Nat.toDigitsCore, h1]
  have hstep2 : Nat.toDigitsCore 10 n (n / 10) [Nat.digitChar (n % 10)] =
      Nat.toDigitsCore 10 m (n / 10 / 10)
        [Nat.digitChar (n / 10 % 10), Nat.digitChar (n % 10)] := by
    rw [hm] at h2 ⊢
    simp [Nat.toDigitsCore, h2]
  rw [hstep1, hstep2]
  have := toDigitsCore_length_lower m (n / 10 / 10)
    [Nat.digitChar (n / 10 % 10), Nat.digitChar (n % 10)] (by omega)
  simpa using this

theorem padZeros2_length_eq {x : Nat} (h : x < 100) :
    (padZeros 2 x).length = 2 := by
  have hup : (Nat.repr x).length ≤ 2 := by
    refine Nat.repr_length x 2 (by omega) ?_
    have : (10 : Nat) ^ 2 = 100 := by norm_num
    omega
  rw [padZeros_length]
  omega

theorem padZeros3_length_eq {x : Nat} (h : x < 1000) :
    (padZeros 3 x).length = 3 := by
  have hup : (Nat.repr x).length ≤ 3 := by
    refine Nat.repr_length x 3 (by omega) ?_
    have : (10 : Nat) ^ 3 = 1000 := by norm_num
    omega
  rw [padZeros_length]
  omega

theorem padZeros2_length_gt {x : Nat} (h : 100 ≤ x) :
    2 < (padZeros 2 x).length := by
  have hlow : 3 ≤ (Nat.repr x).length := repr_length_lower_100 x h
  rw [padZeros_length]
  omega

/-- An established per-session record for a key survives any sequence of laps
none of which resolves to that key with a strictly smaller valid laptime. -/
theorem foldl_stepLap_keeps (dm pn) (laps : List Lap) (bl : BestLaps)
    (k : String × Int) (r : LapInfo) (h : dictGet bl k = some r)
    (hge : ∀ lap ∈ laps, dictGet dm (lap.carId, lap.driverIndex) = some k →
      lap.isValidForBest = true → r.laptime ≤ lap.laptime) :
    dictGet (laps.foldl (stepLap dm pn) bl) k = some r := by
  induction laps generalizing bl with
  | nil => exact h
  | cons lap laps ih =>
    rw [List.foldl_cons]
    refine ih (stepLap dm pn bl lap) ?_
      (fun lap' hlap' => hge lap' (List.mem_cons_of_mem lap hlap'))
    rw [dictGet_stepLap]
    rw [if_neg]
    · exact h
    · rintro ⟨h1, h2, h3⟩
      have hle := hge lap (List.mem_cons_self lap laps) h1 h2
      rw [shouldUpd_of_some _ h] at h3
      exact absurd (of_decide_eq_true h3) (not_lt_of_le hle)

/-- Laps with `isValidForBest = false` never influence the session reduction:
filtering them out first yields the same fold result. -/
theorem foldl_stepLap_filter (dm pn) (laps : List Lap) (bl : BestLaps) :
    laps.foldl (stepLap dm pn) bl =
      (laps.filter (fun lap => lap.isValidForBest)).foldl (stepLap dm pn) bl := by
  induction laps generalizing bl with
  | nil => rfl
  | cons lap laps ih =>
    cases hv : lap.isValidForBest with
    | false =>
      rw [List.foldl_cons, stepLap_of_invalid hv, List.filter_cons_of_neg (by simp [hv])]
      exact ih bl
    | true =>
      rw [List.foldl_cons, List.filter_cons_of_pos (by simp [hv]), List.foldl_cons]
      exact ih (stepLap dm pn bl lap)

/-! ### Claim theorems -/

/-- C1: the spec claims that members whose names do not end in `.json` are
ignored entirely by `aggregate_results` (not opened, not decoded, no effect on
the output).  The code violates this: `process_session_data(session_data)` is
indented outside the `if filename.endswith(".json")` guard, so it runs for
every member; when the very first member is not `.json`-suffixed the local
variable `session_data` is still unassigned and the call raises
`UnboundLocalError` instead of the member being ignored.  This theorem
evaluates the modelled code at such a failing input: a two-member archive
whose first member is `README.md` (the JSON member is perfectly well formed,
and on its own would aggregate successfully). -/
theorem c1_nonjson_first_member_raises :
    aggregate_results [⟨"README.md", sampleSession⟩, ⟨"race.json", sampleSession⟩] =
      Except.error
        "UnboundLocalError: local variable session_data referenced before assignment" ∧
    ∃ l, aggregate_results [⟨"race.json", sampleSession⟩] = Except.ok l :=
  ⟨by rfl,
   ⟨[⟨"P1", ("Ann", "Archer"), 5, 90000, [30000, 30000, 30000], 0⟩], by rfl⟩⟩

/-- C2 (amended): when the aggregated mapping ends up empty, the run does fail
with a fatal error that reaches the caller and no output rows are produced —
but the emptiness is *not* checked explicitly: the failure is the `ValueError`
raised inside the minimum-lap-time computation (`min` over an empty sequence),
exactly the obscure failure mode the spec says is prevented. -/
theorem c2_empty_fails_fatally (members : List Member)
    (carNames : Int → Option String)
    (h : aggregate_loop members = Except.ok []) :
    aggregate_results members =
      Except.error "ValueError: min arg is an empty sequence" ∧
    run_merger carNames members =
      Except.error "ValueError: min arg is an empty sequence" := by
  have h1 : aggregate_results members =
      Except.error "ValueError: min arg is an empty sequence" := by
    unfold aggregate_results
    rw [h]
    rfl
  refine ⟨h1, ?_⟩
  unfold run_merger
  rw [h1]
  rfl

theorem c2_empty_fails_fatally_witness :
    aggregate_results ([] : List Member) =
      Except.error "ValueError: min arg is an empty sequence" ∧
    run_merger (fun _ => none) ([] : List Member) =
      Except.error "ValueError: min arg is an empty sequence" :=
  c2_empty_fails_fatally [] (fun _ => none) (by rfl)

/-- C2 counterexample: the claim says emptiness "is checked explicitly rather
than allowed to fail obscurely inside the minimum-lap-time computation".  At
the concrete empty archive, the error the code produces is precisely the
`ValueError` raised by `min` over the empty mapping — there is no explicit
check preceding it, so the claim as stated is false of the code. -/
theorem c2_empty_not_checked_explicitly_cex :
    aggregate_results ([] : List Member) =
      Except.error "ValueError: min arg is an empty sequence" := by
  rfl

/-- C3: every entry of the session reduction carries the minimum laptime among
the session's laps that resolve (through `driver_map`) to the same
`(playerId, carModel)` key and have `isValidForBest = true`; the minimum is
attained by such a lap.  Moreover laps with `isValidForBest = false` never
influence the result: filtering them away first produces the identical
mapping. -/
theorem c3_best_lap_is_min_of_valid :
    (∀ (data : SessionRecord) (k : String × Int) (r : LapInfo),
        dictGet (process_session_data data) k = some r →
        (∃ lap ∈ data.laps,
            dictGet (driver_map data.leaderBoardLines)
              (lap.carId, lap.driverIndex) = some k ∧
            lap.isValidForBest = true ∧ lap.laptime = r.laptime) ∧
        (∀ lap ∈ data.laps,
            dictGet (driver_map data.leaderBoardLines)
              (lap.carId, lap.driverIndex) = some k →
            lap.isValidForBest = true → r.laptime ≤ lap.laptime)) ∧
    (∀ data : SessionRecord,
        process_session_data data =
          process_session_data
            ⟨data.laps.filter (fun lap => lap.isValidForBest),
              data.leaderBoardLines⟩) := by
  constructor
  · intro data k r h
    obtain ⟨hsrc, hbound, -⟩ :=
      foldl_stepLap_spec (driver_map data.leaderBoardLines)
        (player_names data.leaderBoardLines) data.laps [] k r h
    refine ⟨?_, hbound⟩
    rcases hsrc with hsrc | ⟨lap, hmem, h1, h2, h3⟩
    · cases hsrc
    · refine ⟨lap, hmem, h1, h2, ?_⟩
      rw [h3]
      rfl
  · intro data
    show data.laps.foldl
        (stepLap (driver_map data.leaderBoardLines)
          (player_names data.leaderBoardLines)) [] =
      (data.laps.filter (fun lap => lap.isValidForBest)).foldl
        (stepLap (driver_map data.leaderBoardLines)
          (player_names data.leaderBoardLines)) []
    exact foldl_stepLap_filter _ _ data.laps []

theorem c3_best_lap_is_min_of_valid_witness :
    (∃ lap ∈ sampleSession.laps,
        dictGet (driver_map sampleSession.leaderBoardLines)
          (lap.carId, lap.driverIndex) = some ("P1", 5) ∧
        lap.isValidForBest = true ∧
        lap.laptime =
          (LapInfo.mk 90000 [30000, 30000, 30000] ("Ann", "Archer")).laptime) ∧
    (∀ lap ∈ sampleSession.laps,
        dictGet (driver_map sampleSession.leaderBoardLines)
          (lap.carId, lap.driverIndex) = some ("P1", 5) →
        lap.isValidForBest = true →
        (LapInfo.mk 90000 [30000, 30000, 30000] ("Ann", "Archer")).laptime ≤
          lap.laptime) :=
  c3_best_lap_is_min_of_valid.1 sampleSession ("P1", 5)
    ⟨90000, [30000, 30000, 30000], ("Ann", "Archer")⟩ (by decide)

/-- C4 counterexample: the claim quantifies over every archive containing
exactly one qualifying session member.  The concrete archive
`[standings.txt, race.json]` has exactly one qualifying member and that member
is well formed, yet `aggregate_results` raises `UnboundLocalError` (the
mis-indented `process_session_data` call runs on the unassigned
`session_data` for the leading non-JSON member), while directly reducing the
session yields a non-empty mapping — so the two are not identical. -/
theorem c4_single_session_cex :
    aggregate_results
        [⟨"standings.txt", sampleSession⟩, ⟨"race.json", sampleSession⟩] =
      Except.error
        "UnboundLocalError: local variable session_data referenced before assignment" ∧
    process_session_data sampleSession ≠ [] :=
  ⟨by rfl, by decide⟩

/-- C4 (amended): for every archive whose single qualifying member comes
first (any non-JSON members may only follow it), the aggregation phase
returns exactly the single session's reduction, and every ranked entry of
`aggregate_results` carries the same laptime, splits and name as the
corresponding `process_session_data` entry (and conversely every reduced key
appears as a ranked entry). -/
theorem c4_single_session_equiv (nm : String) (s : SessionRecord)
    (rest : List Member) (h1 : endswith nm ".json" = true)
    (h2 : ∀ m ∈ rest, endswith m.name ".json" = false) :
    aggregate_loop (⟨nm, s⟩ :: rest) = Except.ok (process_session_data s) ∧
    (∀ l, aggregate_results (⟨nm, s⟩ :: rest) = Except.ok l →
      (∀ e ∈ l, dictGet (process_session_data s) (e.player_id, e.car_model) =
          some ⟨e.laptime, e.splits, e.name⟩) ∧
      (∀ k r, dictGet (process_session_data s) k = some r →
        ∃ e ∈ l, e.player_id = k.1 ∧ e.car_model = k.2 ∧
          e.laptime = r.laptime ∧ e.splits = r.splits ∧ e.name = r.name)) := by
  have hloop := aggregate_loop_single nm s rest h1 h2
  refine ⟨hloop, ?_⟩
  intro l hl
  obtain ⟨agg, b, hloop', hmin, hl'⟩ := aggregate_results_ok_inv hl
  have hagg : agg = process_session_data s := by
    have := hloop'.symm.trans hloop
    injection this
  subst hagg
  constructor
  · intro e he
    rw [hl', mem_sortByLaptime, rankedOf, List.mem_map] at he
    obtain ⟨kv, hkv, rfl⟩ := he
    exact dictGet_self_of_mem (nodupKeys_process_session_data s) hkv
  · intro k r hkr
    refine ⟨⟨k.1, r.name, k.2, r.laptime, r.splits, r.laptime - b⟩, ?_,
      rfl, rfl, rfl, rfl, rfl⟩
    rw [hl', mem_sortByLaptime, rankedOf, List.mem_map]
    refine ⟨(k, r), mem_of_dictGet_eq_some hkr, rfl⟩

theorem c4_single_session_equiv_witness :
    aggregate_loop
        [⟨"race.json", sampleSession⟩, ⟨"README.txt", sampleSession⟩] =
      Except.ok (process_session_data sampleSession) ∧
    (∀ l, aggregate_results
        [⟨"race.json", sampleSession⟩, ⟨"README.txt", sampleSession⟩] =
          Except.ok l →
      (∀ e ∈ l, dictGet (process_session_data sampleSession)
          (e.player_id, e.car_model) = some ⟨e.laptime, e.splits, e.name⟩) ∧
      (∀ k r, dictGet (process_session_data sampleSession) k = some r →
        ∃ e ∈ l, e.player_id = k.1 ∧ e.car_model = k.2 ∧
          e.laptime = r.laptime ∧ e.splits = r.splits ∧ e.name = r.name)) :=
  c4_single_session_equiv "race.json" sampleSession
    [⟨"README.txt", sampleSession⟩] (by decide)
    (by intro m hm; rw [List.mem_singleton] at hm; rw [hm]; decide)

/-- C5: for every archive on which `aggregate_results` succeeds, the returned
list is non-empty and non-decreasing in laptime, there is a global minimum
laptime `best` attained by some entry and bounding all entries from below,
every entry's gap is its laptime minus `best` (hence non-negative), and the
first (fastest) entry has gap exactly `0`. -/
theorem c5_sorted_nonneg_gaps (members : List Member) (l : List RankedEntry)
    (h : aggregate_results members = Except.ok l) :
    l ≠ [] ∧ List.Pairwise lapLE l ∧
    ∃ best : Int,
      (∀ e ∈ l, e.gap = e.laptime - best ∧ 0 ≤ e.gap ∧ best ≤ e.laptime) ∧
      (∃ e ∈ l, e.laptime = best) ∧
      (∀ hne : l ≠ [], (l.head hne).gap = 0) := by
  obtain ⟨agg, b, hloop, hmin, hl⟩ := aggregate_results_ok_inv h
  obtain ⟨⟨p₀, hp₀, hp₀b⟩, hbound⟩ := minLaptime_ok hmin
  have hmem_iff : ∀ e : RankedEntry, e ∈ l ↔ e ∈ rankedOf agg b := by
    intro e
    rw [hl]
    exact mem_sortByLaptime
  have hsorted : List.Pairwise lapLE l := by
    rw [hl]
    exact sortByLaptime_sorted _
  have hprops : ∀ e ∈ l, e.gap = e.laptime - b ∧ 0 ≤ e.gap ∧ b ≤ e.laptime := by
    intro e he
    rw [hmem_iff, rankedOf, List.mem_map] at he
    obtain ⟨kv, hkv, rfl⟩ := he
    have hb := hbound kv hkv
    exact ⟨rfl, by simp; exact hb, hb⟩
  have hattain : ∃ e ∈ l, e.laptime = b := by
    refine ⟨⟨p₀.1.1, p₀.2.name, p₀.1.2, p₀.2.laptime, p₀.2.splits,
      p₀.2.laptime - b⟩, ?_, hp₀b⟩
    rw [hmem_iff, rankedOf, List.mem_map]
    exact ⟨p₀, hp₀, rfl⟩
  obtain ⟨ew, hew, hewb⟩ := hattain
  refine ⟨List.ne_nil_of_mem hew, hsorted, b, hprops, ⟨ew, hew, hewb⟩, ?_⟩
  intro hne
  have he₀ : l.head hne ∈ l := List.head_mem hne
  obtain ⟨tl, htl⟩ : ∃ tl, l = l.head hne :: tl :=
    ⟨l.tail, (List.head_cons_tail l hne).symm⟩
  have hle : ∀ e ∈ l, (l.head hne).laptime ≤ e.laptime := by
    intro e he
    rw [htl, List.mem_cons] at he
    rcases he with he | he
    · rw [he]
    · have hpw := hsorted
      rw [htl] at hpw
      rcases hpw with - | ⟨hrel, -⟩
      exact hrel e he
  have h1 : (l.head hne).laptime ≤ b := hewb ▸ hle ew hew
  have h2 : b ≤ (l.head hne).laptime := (hprops _ he₀).2.2
  have h3 : (l.head hne).gap = (l.head hne).laptime - b := (hprops _ he₀).1
  rw [h3]
  omega

theorem c5_sorted_nonneg_gaps_witness :
    ([⟨"P1", ("Ann", "Archer"), 5, 90000, [30000, 30000, 30000], 0⟩] :
        List RankedEntry) ≠ [] ∧
    List.Pairwise lapLE
      [⟨"P1", ("Ann", "Archer"), 5, 90000, [30000, 30000, 30000], 0⟩] ∧
    ∃ best : Int,
      (∀ e ∈ ([⟨"P1", ("Ann", "Archer"), 5, 90000, [30000, 30000, 30000], 0⟩] :
          List RankedEntry),
        e.gap = e.laptime - best ∧ 0 ≤ e.gap ∧ best ≤ e.laptime) ∧
      (∃ e ∈ ([⟨"P1", ("Ann", "Archer"), 5, 90000, [30000, 30000, 30000], 0⟩] :
          List RankedEntry), e.laptime = best) ∧
      (∀ hne : ([⟨"P1", ("Ann", "Archer"), 5, 90000, [30000, 30000, 30000], 0⟩] :
          List RankedEntry) ≠ [],
        (([⟨"P1", ("Ann", "Archer"), 5, 90000, [30000, 30000, 30000], 0⟩] :
          List RankedEntry).head hne).gap = 0) :=
  c5_sorted_nonneg_gaps [⟨"race.json", sampleSession⟩]
    [⟨"P1", ("Ann", "Archer"), 5, 90000, [30000, 30000, 30000], 0⟩] (by rfl)

/-- C6: `ms_to_time_format` renders a non-negative millisecond count as
`mm:ss.mmm`: the string is the minutes rendered zero-padded to (at least) two
digits, a colon, the seconds zero-padded to exactly two digits, a dot, and
the milliseconds zero-padded to exactly three digits; minutes below 100
occupy exactly two characters while minutes of 100 or more are never
truncated and occupy more than two; `61234 ↦ "01:01.234"`, `0 ↦ "00:00.000"`;
and the Gap column renders 1500 ms as `"1.500"`. -/
theorem c6_time_and_gap_format :
    (∀ ms : Nat,
        ms_to_time_format ms =
          padZeros 2 (ms / 60000) ++ ":" ++ padZeros 2 (ms % 60000 / 1000) ++
            "." ++ padZeros 3 (ms % 1000) ∧
        (padZeros 2 (ms % 60000 / 1000)).length = 2 ∧
        (padZeros 3 (ms % 1000)).length = 3 ∧
        (ms / 60000 < 100 → (padZeros 2 (ms / 60000)).length = 2) ∧
        (100 ≤ ms / 60000 → 2 < (padZeros 2 (ms / 60000)).length)) ∧
    ms_to_time_format 61234 = "01:01.234" ∧
    ms_to_time_format 0 = "00:00.000" ∧
    gapFormat 1500 = "1.500" := by
  refine ⟨?_, by rfl, by rfl, by rfl⟩
  intro ms
  refine ⟨rfl, ?_, ?_, ?_, ?_⟩
  · exact padZeros2_length_eq (by omega)
  · exact padZeros3_length_eq (by omega)
  · intro h
    exact padZeros2_length_eq h
  · intro h
    exact padZeros2_length_gt h

theorem c6_time_and_gap_format_witness :
    (padZeros 2 (61234 / 60000)).length = 2 ∧
    2 < (padZeros 2 (7200000 / 60000)).length :=
  ⟨(c6_time_and_gap_format.1 61234).2.2.2.1 (by decide),
   (c6_time_and_gap_format.1 7200000).2.2.2.2 (by decide)⟩

/-- C7: both accumulators are overwritten only on strictly smaller laptimes,
so a stored record survives — unchanged, splits and name included — any
further laps (within a session) or merged session records (across the
archive) whose laptimes are not strictly smaller; in particular every tie
keeps the first-seen record. -/
theorem c7_overwrite_only_strictly_faster :
    (∀ (dm : List ((Int × Int) × (String × Int)))
        (pn : List (String × (String × String))) (bl : BestLaps)
        (laps : List Lap) (k : String × Int) (r : LapInfo),
        dictGet bl k = some r →
        (∀ lap ∈ laps, dictGet dm (lap.carId, lap.driverIndex) = some k →
          lap.isValidForBest = true → r.laptime ≤ lap.laptime) →
        dictGet (laps.foldl (stepLap dm pn) bl) k = some r) ∧
    (∀ (agg : BestLaps) (kvs : List ((String × Int) × LapInfo))
        (k : String × Int) (r : LapInfo),
        dictGet agg k = some r →
        (∀ kv ∈ kvs, kv.1 = k → r.laptime ≤ kv.2.laptime) →
        dictGet (kvs.foldl mergeStep agg) k = some r) :=
  ⟨fun dm pn bl laps k r h hge => foldl_stepLap_keeps dm pn laps bl k r h hge,
   fun agg kvs k r h hge => foldl_mergeStep_keeps kvs agg k r h hge⟩

theorem c7_overwrite_only_strictly_faster_witness :
    dictGet
      (([⟨1, 0, 90000, true, [4, 5, 6]⟩] : List Lap).foldl
        (stepLap [((1, 0), ("P1", 5))] [("P1", ("Ann", "Archer"))])
        [(("P1", 5), ⟨90000, [1, 2, 3], ("Ann", "Archer")⟩)])
      ("P1", 5) = some ⟨90000, [1, 2, 3], ("Ann", "Archer")⟩ ∧
    dictGet
      (([(("P1", 5), ⟨90000, [4, 5, 6], ("Bob", "Best")⟩)] :
          List ((String × Int) × LapInfo)).foldl mergeStep
        [(("P1", 5), ⟨90000, [1, 2, 3], ("Ann", "Archer")⟩)])
      ("P1", 5) = some ⟨90000, [1, 2, 3], ("Ann", "Archer")⟩ :=
  ⟨c7_overwrite_only_strictly_faster.1 [((1, 0), ("P1", 5))]
      [("P1", ("Ann", "Archer"))]
      [(("P1", 5), ⟨90000, [1, 2, 3], ("Ann", "Archer")⟩)]
      [⟨1, 0, 90000, true, [4, 5, 6]⟩] ("P1", 5)
      ⟨90000, [1, 2, 3], ("Ann", "Archer")⟩ (by decide) (by decide),
   c7_overwrite_only_strictly_faster.2
      [(("P1", 5), ⟨90000, [1, 2, 3], ("Ann", "Archer")⟩)]
      [(("P1", 5), ⟨90000, [4, 5, 6], ("Bob", "Best")⟩)] ("P1", 5)
      ⟨90000, [1, 2, 3], ("Ann", "Archer")⟩ (by decide) (by decide)⟩

/-- C8: a lap whose `(carId, driverIndex)` pair has no entry in the
leaderboard-derived lookup is silently skipped: deleting it from the lap list
changes nothing in the session reduction (so it appears in no record), and
the reduction is a total function (the `.get`/`continue` path raises no
error). -/
theorem c8_unresolved_lap_skipped (lb : List LeaderBoardLine)
    (laps₁ laps₂ : List Lap) (lap : Lap)
    (h : dictGet (driver_map lb) (lap.carId, lap.driverIndex) = none) :
    process_session_data ⟨laps₁ ++ lap :: laps₂, lb⟩ =
      process_session_data ⟨laps₁ ++ laps₂, lb⟩ := by
  show (laps₁ ++ lap :: laps₂).foldl
      (stepLap (driver_map lb) (player_names lb)) [] =
    (laps₁ ++ laps₂).foldl (stepLap (driver_map lb) (player_names lb)) []
  rw [List.foldl_append, List.foldl_append, List.foldl_cons,
    stepLap_of_unresolved h]

theorem c8_unresolved_lap_skipped_witness :
    process_session_data
        ⟨[] ++ orphanLap :: sampleSession.laps, sampleSession.leaderBoardLines⟩ =
      process_session_data
        ⟨[] ++ sampleSession.laps, sampleSession.leaderBoardLines⟩ :=
  c8_unresolved_lap_skipped sampleSession.leaderBoardLines [] sampleSession.laps
    orphanLap (by decide)

/-- C9: both dict comprehensions of `process_session_data` resolve every key
to the **last** binding generated for it during the leaderboard traversal
(`driver_map` for `(carId, driverIndex)` keys, `player_names` for `playerId`
keys), and appending a later binding for a key makes it the one looked up —
later duplicate entries overwrite earlier ones. -/
theorem c9_last_binding_wins :
    (∀ (lb : List LeaderBoardLine) (k : Int × Int),
        dictGet (driver_map lb) k = lastVal (driverMapBindings lb) k) ∧
    (∀ (lb : List LeaderBoardLine) (pid : String),
        dictGet (player_names lb) pid = lastVal (playerNamesBindings lb) pid) ∧
    (∀ (bs : List ((Int × Int) × (String × Int))) (k : Int × Int)
        (v : String × Int), lastVal (bs ++ [(k, v)]) k = some v) := by
  refine ⟨fun lb k => dictGet_dictOfBindings _ k,
    fun lb pid => dictGet_dictOfBindings _ pid, ?_⟩
  intro bs k v
  rw [lastVal_append_single]
  simp

/-- C10: an archive whose first listed member does not end in `.json` crashes
`aggregate_results` with the unassigned-variable error even though every JSON
member is well formed: `process_session_data(session_data)` sits outside the
suffix guard, so the error branch of the member loop is reachable.  The same
archive without the leading non-JSON member aggregates successfully. -/
theorem c10_unbound_session_data_error :
    aggregate_results
        [⟨"drivers.csv", sampleSession⟩, ⟨"quali.json", sampleSession⟩] =
      Except.error
        "UnboundLocalError: local variable session_data referenced before assignment" ∧
    ∃ l, aggregate_results [⟨"quali.json", sampleSession⟩] = Except.ok l :=
  ⟨by rfl,
   ⟨[⟨"P1", ("Ann", "Archer"), 5, 90000, [30000, 30000, 30000], 0⟩], by rfl⟩⟩
